import Mathlib

/-!
# arc: origin gate (`middleware/validate/referers.go`) and audit store (`plugins/logs/dao.go`)

A shallow embedding of the two source files and the properties of their
behaviour.

Conventions of the embedding.

* Go strings are Lean `String`s; the library routines that scan a string work on
  its list of characters (`String.data`).
* Calls into the Go standard library (`strings.Replace`, `strconv.Atoi`,
  `json.Unmarshal`) are modelled by Lean functions written from the documented
  behaviour of those routines.
* `regexp.MatchString` is a parameter of the gate: a total function that agrees
  with the documented behaviour of the routine on a fragment of the RE2 syntax
  (literal characters, `.`, `*`, `+`, `?`), where that behaviour is written out.
  Nothing is assumed of it on the other patterns.
* Side effects (log lines, the error response, the call of the next handler, the
  calls made to the storage engine) are recorded, in program order, in a list of
  events returned by the function.
-/

namespace Arc

deriving instance DecidableEq for Except

/-! ## Go standard library: `strings.Replace` -/

/-- The call `strings.Replace(s, "*", ".*", -1)` on the characters of `s`: every
occurrence of the one-character string `*` is replaced by `.*`. -/
def replaceStar : List Char → List Char
  | [] => []
  | c :: t => if c = '*' then '.' :: '*' :: replaceStar t else c :: replaceStar t

/-! ## Go standard library: `regexp.MatchString` on a fragment of the syntax -/

/-- A single-character matcher of the regular expression syntax tree. -/
inductive Atom where
  /-- The node `OpLiteral`: the character itself. -/
  | lit (c : Char)
  /-- The node `OpAnyCharNotNL`, written `.`: any character but the line feed
  (the flag `DotNL` is not set by `regexp.Compile`). -/
  | anyCharNotNL
  deriving DecidableEq, Repr

/-- The repetition operators `*`, `+` and `?`. -/
inductive RepOp where
  | star
  | plus
  | quest
  deriving DecidableEq, Repr

/-- One element of a concatenation: an atom, possibly under a repetition. -/
inductive Node where
  | atom (a : Atom)
  | rep (op : RepOp) (a : Atom)
  deriving DecidableEq, Repr

/-- The errors `regexp/syntax` reports inside the modelled fragment, with the
offending piece of the expression. -/
inductive SyntaxError where
  /-- The code `ErrMissingRepeatArgument`. -/
  | missingRepeatArgument (expr : List Char)
  /-- The code `ErrInvalidRepeatOp`. -/
  | invalidRepeatOp (expr : List Char)
  deriving DecidableEq, Repr

/-- The text of `(*syntax.Error).Error()`. -/
def SyntaxError.Error : SyntaxError → String
  | .missingRepeatArgument e =>
    "error parsing regexp: missing argument to repetition operator: `" ++ String.mk e ++ "`"
  | .invalidRepeatOp e =>
    "error parsing regexp: invalid nested repetition operator: `" ++ String.mk e ++ "`"

/-- The characters whose treatment by `regexp/syntax` is outside the modelled
fragment: groups, alternation, classes, counted repetition, escapes, anchors. -/
def unmodelledChar (c : Char) : Bool :=
  c = '(' || c = ')' || c = '|' || c = '[' || c = ']' || c = '{' || c = '}' ||
  c = '\\' || c = '^' || c = '$'

/-- The operator a repetition character stands for. -/
def repOp? (c : Char) : Option RepOp :=
  if c = '*' then some .star else if c = '+' then some .plus
  else if c = '?' then some .quest else none

/-- What one iteration of the main loop of `syntax.parse` does. -/
inductive Step where
  /-- The parse stops with this result (`none`: outside the modelled fragment). -/
  | stop (r : Option SyntaxError)
  /-- The loop goes on with this stack and this `lastRepeat`; `skip` tells that the
  iteration consumed the character after the current one as well. -/
  | next (stack : List Node) (lastRepeat : Option (List Char)) (skip : Bool)

/-- One iteration of the main loop of `syntax.parse` (flags `syntax.Perl`) at the
character `c`, followed in the text by `d?` (`none` at the end of the text).
`stack` is the parser's stack, top first; `lastRepeat` is the text of the
repetition operator that ended the previous iteration (`none` for the empty
string). -/
def parseStep (c : Char) (d? : Option Char) (stack : List Node)
    (lastRepeat : Option (List Char)) : Step :=
  match repOp? c with
  | some op =>
    -- `repeat`: under `PerlX` a following `?` is the non-greedy marker
    let nonGreedy : Bool := decide (d? = some '?')
    let opText : List Char := if nonGreedy then [c, '?'] else [c]
    match lastRepeat with
    | some last => .stop (some (.invalidRepeatOp (last ++ opText)))
    | none =>
      match stack with
      | [] => .stop (some (.missingRepeatArgument opText))
      | .rep _ _ :: _ => .stop none -- not reached: a repetition on top sets lastRepeat
      | .atom a :: rest => .next (.rep op a :: rest) (some opText) nonGreedy
  | none =>
    if unmodelledChar c then .stop none
    else if c = '.' then .next (.atom .anyCharNotNL :: stack) none false
    else .next (.atom (.lit c) :: stack) none false

/-- The result a stopped parse reports. -/
def Step.report : Option SyntaxError → Option (Except SyntaxError (List Node))
  | none => none
  | some e => some (.error e)

/-- The main loop of `syntax.parse` on the remaining text, from the given stack and
`lastRepeat`.  Result: `none` when the text leaves the modelled fragment, otherwise
the error or the concatenation in reading order. -/
def parseLoop : List Char → List Node → Option (List Char) →
    Option (Except SyntaxError (List Node))
  | [], stack, _ => some (.ok stack.reverse)
  | [c], stack, lastRepeat =>
    match parseStep c none stack lastRepeat with
    | .stop r => Step.report r
    | .next stack1 _ _ => some (.ok stack1.reverse)
  | c :: d :: t, stack, lastRepeat =>
    match parseStep c (some d) stack lastRepeat with
    | .stop r => Step.report r
    | .next stack1 lastRepeat1 skip =>
      if skip then parseLoop t stack1 lastRepeat1
      else parseLoop (d :: t) stack1 lastRepeat1

/-- The call `syntax.Parse(expr, syntax.Perl)` behind `regexp.Compile`. -/
def Compile (expr : List Char) : Option (Except SyntaxError (List Node)) :=
  parseLoop expr [] none

/-- Whether the atom accepts the character. -/
def Atom.accepts : Atom → Char → Bool
  | .lit c, d => decide (c = d)
  | .anyCharNotNL, d => decide (d ≠ '\n')

/-- Zero or more characters accepted by `a`, then the continuation `k`. -/
def matchStar (a : Atom) (k : List Char → Bool) : List Char → Bool
  | [] => k []
  | c :: t => k (c :: t) || (a.accepts c && matchStar a k t)

/-- One node at the head of the input, then the continuation `k`. -/
def matchNode : Node → (List Char → Bool) → List Char → Bool
  | .atom _, _, [] => false
  | .atom a, k, c :: t => a.accepts c && k t
  | .rep .star a, k, s => matchStar a k s
  | .rep .plus _, _, [] => false
  | .rep .plus a, k, c :: t => a.accepts c && matchStar a k t
  | .rep .quest _, k, [] => k []
  | .rep .quest a, k, c :: t => k (c :: t) || (a.accepts c && k t)

/-- Whether some prefix of the input is matched by the concatenation. -/
def matchHere : List Node → List Char → Bool
  | [] => fun _ => true
  | n :: r => matchNode n (matchHere r)

/-- The unanchored search of `(*Regexp).MatchString`: whether the expression
matches starting at some position of the input. -/
def matchAnywhere (re : List Node) : List Char → Bool
  | [] => matchHere re []
  | c :: t => matchHere re (c :: t) || matchAnywhere re t

/-- The documented behaviour of `regexp.MatchString(pattern, s)` on the patterns of
the fragment: compile the pattern, report the compile error, otherwise report
whether the text contains any match.  `none` for a pattern outside the fragment. -/
def matchStringFragment (pattern s : List Char) : Option (Except String Bool) :=
  match Compile pattern with
  | none => none
  | some (.error e) => some (.error e.Error)
  | some (.ok re) => some (.ok (matchAnywhere re s))

/-- The package `regexp` as the gate uses it: the function `regexp.MatchString`, of
which the error is the failure to compile the pattern, together with the fact that
on the patterns of the fragment it behaves as documented. -/
structure Regexp where
  MatchString : List Char → List Char → Except String Bool
  fragment : ∀ pattern s r, matchStringFragment pattern s = some r →
    MatchString pattern s = r

/-! ## `middleware/validate/referers.go` -/

/-- Modelled from the spec: the type `credential.Credential` (package
`model/credential`, not among the sources), "a distinguished kind
(permission-based) that triggers origin checking, versus all other kinds". -/
inductive Credential where
  | Permission
  | other (kind : Nat)
  deriving DecidableEq, Repr

/-- Modelled from the spec: the type `permission.Permission` (package
`model/permission`, not among the sources), of which the gate reads the field
`Referers`, the "ordered list of origin patterns". -/
structure Permission where
  Referers : List String
  deriving DecidableEq, Repr

/-- What the handler gets from the request: the outcomes of
`credential.FromContext(ctx)` and `permission.FromContext(ctx)` (an error carries
its message), and the first value of the `Referer` header when there is one. -/
structure Request where
  credential : Except String Credential
  permission : Except String Permission
  referer : Option String

/-- The method `req.Header.Get("Referer")`: the empty string when the header is
absent. -/
def Request.HeaderGetReferer (req : Request) : String :=
  req.referer.getD ""

/-- The effects of the handler, in program order. -/
inductive Event where
  /-- A call of `credential.FromContext`. -/
  | credentialFromContext
  /-- A call of `permission.FromContext`. -/
  | permissionFromContext
  /-- A line written by `log.Printf`. -/
  | log (line : String)
  /-- A call of `util.WriteBackError(w, msg, status)`. -/
  | writeBackError (msg : String) (status : Nat)
  /-- The call `h(w, req)` of the next handler. -/
  | next
  deriving DecidableEq, Repr

/-- The constant `http.StatusInternalServerError`. -/
def StatusInternalServerError : Nat := 500

/-- The constant `http.StatusUnauthorized`. -/
def StatusUnauthorized : Nat := 401

/-- The effects of `log.Printf("%s: %v\n", logTag, err)` followed by
`util.WriteBackError(w, err.Error(), http.StatusInternalServerError)`. -/
def internalError (logTag err : String) : List Event :=
  [.log (logTag ++ ": " ++ err ++ "\n"), .writeBackError err StatusInternalServerError]

/-- The loop `for _, referer := range allowedReferers` of `referers`.  Result:
`error` with the effects of the aborting branch when `regexp.MatchString` fails,
otherwise the final value of `validated`. -/
def referersLoop (regexp : Regexp) (logTag reqDomain : String) :
    List String → Except (List Event) Bool
  | [] => .ok false
  | referer :: rest =>
    let referer := replaceStar referer.data
    match regexp.MatchString referer reqDomain.data with
    | .error err => .error (internalError logTag err)
    | .ok matched =>
      if matched then .ok true else referersLoop regexp logTag reqDomain rest

/-- The handler returned by `referers(h)`, as the list of its effects; `logTag` is
the package constant of that name. -/
def referers (regexp : Regexp) (logTag : String) (req : Request) : List Event :=
  match req.credential with
  | .error err => .credentialFromContext :: internalError logTag err
  | .ok reqCredential =>
    if reqCredential = Credential.Permission then
      let reqDomain := req.HeaderGetReferer
      if reqDomain = "" then
        [.credentialFromContext,
          .writeBackError "failed to identify request domain, empty header: Referer"
            StatusUnauthorized]
      else
        match req.permission with
        | .error err =>
          .credentialFromContext :: .permissionFromContext :: internalError logTag err
        | .ok reqPermission =>
          let allowedReferers := reqPermission.Referers
          match referersLoop regexp logTag reqDomain allowedReferers with
          | .error evs => .credentialFromContext :: .permissionFromContext :: evs
          | .ok validated =>
            if !validated then
              [.credentialFromContext, .permissionFromContext,
                .writeBackError "permission doeesn't have required referers"
                  StatusInternalServerError]
            else
              [.credentialFromContext, .permissionFromContext, .next]
    else
      [.credentialFromContext, .next]

/-! ## Go standard library: `strconv.Atoi` (64-bit `int`) -/

/-- The field `Err` of a `*strconv.NumError`. -/
inductive NumError where
  /-- The value `strconv.ErrSyntax`. -/
  | syntaxErr
  /-- The value `strconv.ErrRange`. -/
  | rangeErr
  deriving DecidableEq, Repr

/-- The value of a decimal digit, `none` for any other character. -/
def digit? (c : Char) : Option Nat :=
  if '0' ≤ c ∧ c ≤ '9' then some (c.toNat - '0'.toNat) else none

/-- The digit loop of `strconv.ParseUint(s, 10, 64)` from the value `n` read so
far: a syntax error at the first character that is not a digit, a range error as
soon as the value leaves `uint64`. -/
def parseUintLoop : List Char → Nat → Except NumError Nat
  | [], n => .ok n
  | c :: t, n =>
    match digit? c with
    | none => .error .syntaxErr
    | some d =>
      if n * 10 + d ≥ 2 ^ 64 then .error .rangeErr else parseUintLoop t (n * 10 + d)

/-- The function `strconv.Atoi`, that is `strconv.ParseInt(s, 10, 0)` with a
64-bit `int`: an optional sign, then at least one decimal digit, and a value
between `-2^63` and `2^63 - 1`. -/
def Atoi (s : String) : Except NumError Int :=
  match s.data with
  | [] => .error .syntaxErr
  | c :: t =>
    let neg : Bool := decide (c = '-')
    let digits := if c = '+' ∨ c = '-' then t else c :: t
    if digits = [] then .error .syntaxErr
    else
      match parseUintLoop digits 0 with
      | .error err => .error err
      | .ok un =>
        if !neg && decide (un ≥ 2 ^ 63) then .error .rangeErr
        else if neg && decide (un > 2 ^ 63) then .error .rangeErr
        else .ok (if neg then - (un : Int) else (un : Int))

/-! ## Go standard library: `encoding/json` -/

/-- A JSON value, also the Go value `json.Unmarshal` stores in an `interface{}`
(`null` is the nil interface; a number is kept as its text). -/
inductive JSON where
  | null
  | bool (b : Bool)
  | number (text : String)
  | string (s : String)
  | array (items : List JSON)
  | object (fields : List (String × JSON))

/-- The bytes of a `json.RawMessage`, abstracted by what the JSON decoder makes of
them: the value they denote, or the decoder's syntax error. -/
inductive RawMessage where
  | valid (v : JSON)
  | invalid (err : String)

/-- The name `encoding/json` gives the kind of a value in an
`UnmarshalTypeError`. -/
def JSON.kind : JSON → String
  | .null => "null"
  | .bool _ => "bool"
  | .number _ => "number"
  | .string _ => "string"
  | .array _ => "array"
  | .object _ => "object"

/-- The call `json.Unmarshal(raw, &source)` with `source` a nil
`map[string]interface{}`: the fields of an object in the order of the text, no
field for `null` (the map stays nil), an error for any other value and for bytes
that are not JSON. -/
def jsonUnmarshalMap : RawMessage → Except String (List (String × JSON))
  | .invalid err => .error err
  | .valid .null => .ok []
  | .valid (.object fields) => .ok fields
  | .valid v =>
    .error ("json: cannot unmarshal " ++ v.kind ++
      " into Go value of type map[string]interface {}")

/-- The map index expression `source[key]` on the fields the decoder read, of which
a later one replaces an earlier one with the same key: the value (the nil
interface when the key is absent) and the flag `ok`. -/
def mapIndex : List (String × JSON) → String → JSON × Bool
  | [], _ => (.null, false)
  | (k, v) :: rest, key =>
    match mapIndex rest key with
    | (w, true) => (w, true)
    | (_, false) => if k = key then (v, true) else (.null, false)

/-! ## `plugins/logs/dao.go` -/

/-- The strings of a list of JSON values, `none` when one of them is not a
string. -/
def stringItems : List JSON → Option (List String)
  | [] => some []
  | .string s :: rest => (stringItems rest).map (s :: ·)
  | _ :: _ => none

/-- Modelled from the spec: the helper `util.ToStringSlice` (package
`internal/util`, not among the sources).  The `indices` field is a "sequence of
string"; the document is skipped "if the field is absent or of unexpected shape".
The wording of the error is not given by the spec. -/
def ToStringSlice : JSON → Except String (List String)
  | .array items =>
    match stringItems items with
    | some l => .ok l
    | none => .error "unable to cast interface{} to []string"
  | _ => .error "unable to cast interface{} to []string"

/-- Modelled from the spec: the helper `util.IsSubset` (package `internal/util`,
not among the sources): "every element of `resource_filter` appears in that
document's `indices` list". -/
def IsSubset (sub set : List String) : Bool :=
  sub.all (fun x => set.contains x)

/-- The fields of `elastic.SearchHit` the code and its result depend on.  `Source`
is a pointer, `none` when it is nil: the hit came without `_source`. -/
structure SearchHit where
  Index : String
  Id : String
  Source : Option RawMessage

/-- The fields of `elastic.SearchResult` the code reads: `TookInMillis` and
`Hits.Hits`. -/
structure SearchResult where
  TookInMillis : Int
  Hits : List SearchHit

/-- The storage engine behind the `elastic` client: which indexes exist, which
calls fail, and what a search on an index returns for an offset and a size
(sorted by `timestamp`, descending). -/
structure Engine where
  /-- The error of `elastic.NewClient` for a URL, if any. -/
  newClientError : String → Option String
  /-- The names of the existing indexes. -/
  existing : List String
  /-- The error of the existence check for an index name, if any. -/
  indexExistsError : String → Option String
  /-- The error of the creation of an index with the given body, if any. -/
  createIndexError : String → String → Option String
  /-- The outcome of `Search(index).From(from).Size(size).Sort("timestamp", false)`. -/
  search : String → Int → Int → Except String SearchResult

/-- The call `client.IndexExists(name).Do(ctx)`. -/
def Engine.IndexExists (eng : Engine) (name : String) : Except String Bool :=
  match eng.indexExistsError name with
  | some err => .error err
  | none => .ok (eng.existing.contains name)

/-- The call `client.CreateIndex(name).Body(body).Do(ctx)`: the engine refuses to
create an index that exists; a successful call adds the name. -/
def Engine.CreateIndex (eng : Engine) (name body : String) : Except String Engine :=
  if eng.existing.contains name then
    .error ("resource_already_exists_exception: index [" ++ name ++ "] already exists")
  else
    match eng.createIndexError name body with
    | some err => .error err
    | none => .ok { eng with existing := name :: eng.existing }

/-- The effects of the audit store, in program order. -/
inductive Effect where
  /-- A line written by `log.Printf`. -/
  | log (line : String)
  /-- A call of `elastic.NewClient` for the URL. -/
  | newClient (url : String)
  /-- A call of `IndexExists(name).Do`. -/
  | indexExists (name : String)
  /-- A call of `CreateIndex(name).Body(body).Do`. -/
  | createIndex (name body : String)
  /-- A call of `Search(index).From(from).Size(size).Sort("timestamp", false).Do`. -/
  | search (index : String) (offset size : Int)
  deriving DecidableEq, Repr

/-- The value `*elastic.Client`: a client for the engine at a URL. -/
structure Client where
  url : String
  deriving DecidableEq, Repr

/-- The struct `elasticsearch`. -/
structure elasticsearch where
  url : String
  indexName : String
  client : Client
  deriving DecidableEq, Repr

/-- The function `newClient`: the handle or the error, the engine afterwards, and
the effects. -/
def newClient (logTag : String) (eng : Engine) (url indexName config : String) :
    Except String elasticsearch × Engine × List Effect :=
  -- Initialize the client
  match eng.newClientError url with
  | some err =>
    (.error ("error while initializing elastic client: " ++ err), eng, [.newClient url])
  | none =>
    let client : Client := ⟨url⟩
    let es : elasticsearch := ⟨url, indexName, client⟩
    -- Check if meta index already exists
    match eng.IndexExists indexName with
    | .error err =>
      (.error ("error while checking if index already exists: " ++ err), eng,
        [.newClient url, .indexExists indexName])
    | .ok exists' =>
      if exists' then
        (.ok es, eng, [.newClient url, .indexExists indexName,
          .log (logTag ++ ": index named \"" ++ indexName ++ "\" already exists, skipping ...\n")])
      else
        -- Meta index doesn't exist, create one
        match eng.CreateIndex indexName config with
        | .error _ =>
          (.error ("error while creating index named \"" ++ indexName ++ "\""), eng,
            [.newClient url, .indexExists indexName, .createIndex indexName config])
        | .ok eng1 =>
          (.ok es, eng1, [.newClient url, .indexExists indexName,
            .createIndex indexName config,
            .log (logTag ++ ": successfully created index name \"" ++ indexName ++ "\"")])

/-- How a call of a function that may panic ends: it returns its value with a nil
error, it returns an error, or it panics. -/
inductive Outcome (α : Type) where
  | ok (v : α)
  | error (err : String)
  | panic (msg : String)

/-- The map `logs` that `getRawLogs` marshals into its result: the entries `logs`,
`total` and `took`. -/
structure RawLogs where
  logs : List SearchHit
  total : Nat
  took : Int

/-- The loop `for _, hit := range response.Hits.Hits` of `getRawLogs`, from the
slice `hits` and the effects `evs` so far: the final slice, the error of the
aborting `return`, or the panic of `*hit.Source` on a nil pointer. -/
def hitsLoop (logTag : String) (indices : List String) :
    List SearchHit → List SearchHit → List Effect →
    Outcome (List SearchHit) × List Effect
  | [], hits, evs => (.ok hits, evs)
  | hit :: rest, hits, evs =>
    match hit.Source with
    | none => (.panic "runtime error: invalid memory address or nil pointer dereference", evs)
    | some raw =>
      match jsonUnmarshalMap raw with
      | .error err => (.error err, evs)
      | .ok source =>
        let (rawIndices, ok) := mapIndex source "indices"
        let evs := if !ok then
            evs ++ [.log (logTag ++ ": unable to find \"indices\" in log record\\n")]
          else evs
        match ToStringSlice rawIndices with
        | .error err =>
          hitsLoop logTag indices rest hits (evs ++ [.log (logTag ++ ": " ++ err ++ "\n")])
        | .ok logIndices =>
          if indices.length = 0 then
            hitsLoop logTag indices rest (hits ++ [hit]) evs
          else if IsSubset indices logIndices then
            hitsLoop logTag indices rest (hits ++ [hit]) evs
          else
            hitsLoop logTag indices rest hits evs

/-- The method `getRawLogs`: the content of the marshalled result (`json.Marshal` of
a map of decoded values does not fail), the error or the panic, and the effects. -/
def getRawLogs (logTag : String) (eng : Engine) (es : elasticsearch)
    (from' size : String) (indices : List String) :
    Outcome RawLogs × List Effect :=
  match Atoi from' with
  | .error _ =>
    (.error ("invalid value \"" ++ from' ++ "\" for query param \"from\""), [])
  | .ok offset =>
    match Atoi size with
    | .error _ =>
      (.error ("invalid value \"" ++ size ++ "\" for query param \"size\""), [])
    | .ok s =>
      match eng.search es.indexName offset s with
      | .error err => (.error err, [.search es.indexName offset s])
      | .ok response =>
        match hitsLoop logTag indices response.Hits [] [.search es.indexName offset s] with
        | (.panic msg, evs) => (.panic msg, evs)
        | (.error err, evs) => (.error err, evs)
        | (.ok hits, evs) =>
          (.ok { logs := hits, total := hits.length, took := response.TookInMillis }, evs)

/-! ## Specification-side notions -/

/-- The words of a glob pattern, as the permission record describes them: each `*`
stands for any sequence of characters, every other character for itself.
`GlobProduces p s`: the pattern `p` produces the entire text `s`. -/
inductive GlobProduces : List Char → List Char → Prop where
  | nil : GlobProduces [] []
  | star (p u v : List Char) : GlobProduces p v → GlobProduces ('*' :: p) (u ++ v)
  | char (c : Char) (p t : List Char) : c ≠ '*' → GlobProduces p t →
      GlobProduces (c :: p) (c :: t)

/-- Whether `k` holds of the text or of one of its suffixes. -/
def anySuffix (k : List Char → Bool) : List Char → Bool
  | [] => k []
  | c :: t => k (c :: t) || anySuffix k t

/-- A decision procedure for `GlobProduces`. -/
def globMatch : List Char → List Char → Bool
  | [], s => s.isEmpty
  | c :: p, s =>
    if c = '*' then anySuffix (globMatch p) s
    else
      match s with
      | [] => false
      | d :: t => decide (d = c) && globMatch p t

/-- The texts a node of the syntax tree matches in full. -/
def Node.Lang : Node → List Char → Prop
  | .atom a, w => ∃ c, w = [c] ∧ a.accepts c = true
  | .rep .star a, w => ∀ c ∈ w, a.accepts c = true
  | .rep .plus a, w => w ≠ [] ∧ ∀ c ∈ w, a.accepts c = true
  | .rep .quest a, w => w = [] ∨ ∃ c, w = [c] ∧ a.accepts c = true

/-- The texts a concatenation of nodes matches in full: the language of the
regular expression. -/
def Lang : List Node → List Char → Prop
  | [], w => w = []
  | n :: r, w => ∃ u v, w = u ++ v ∧ n.Lang u ∧ Lang r v

/-- The regular expression matches some contiguous part of the text. -/
def MatchesPart (re : List Node) (s : List Char) : Prop :=
  ∃ pre mid post, s = pre ++ mid ++ post ∧ Lang re mid

/-- A character of a pattern that the translation of the gate turns into the
regular expression one expects of a glob: a `*`, or a character that the syntax of
regular expressions reads as itself or, for `.`, as any character. -/
def globChar (c : Char) : Prop :=
  unmodelledChar c = false ∧ c ≠ '+' ∧ c ≠ '?'

instance (c : Char) : Decidable (globChar c) := by
  unfold globChar; infer_instance

/-- The syntax tree of the translation of a pattern made of `globChar`s. -/
def globNodes : List Char → List Node
  | [] => []
  | c :: p =>
    (if c = '*' then Node.rep .star .anyCharNotNL
     else if c = '.' then Node.atom .anyCharNotNL
     else Node.atom (.lit c)) :: globNodes p

/-- The words of a glob pattern as the regular expression syntax reads them once
every `*` is replaced by `.*`: each `*` stands for any sequence of characters other
than the line feed, each `.` for any one such character, every other character for
itself.  `GlobDotProduces p s`: read so, the pattern `p` produces the entire text
`s`. -/
inductive GlobDotProduces : List Char → List Char → Prop where
  | nil : GlobDotProduces [] []
  | star (p u v : List Char) : (∀ c ∈ u, c ≠ '\n') → GlobDotProduces p v →
      GlobDotProduces ('*' :: p) (u ++ v)
  | dot (p : List Char) (c : Char) (t : List Char) : c ≠ '\n' → GlobDotProduces p t →
      GlobDotProduces ('.' :: p) (c :: t)
  | char (c : Char) (p t : List Char) : c ≠ '*' → c ≠ '.' → GlobDotProduces p t →
      GlobDotProduces (c :: p) (c :: t)

/-- The run forwards: the next handler is called. -/
def Forwards (evs : List Event) : Prop :=
  Event.next ∈ evs

instance (evs : List Event) : Decidable (Forwards evs) := by
  unfold Forwards; infer_instance

/-- The `indices` field of a hit when the hit is well formed: its source is a field
map whose field `indices` is a list of strings. -/
def SearchHit.indices? (hit : SearchHit) : Option (List String) :=
  match hit.Source with
  | some (.valid (.object fields)) =>
    match mapIndex fields "indices" with
    | (.array items, _) => stringItems items
    | _ => none
  | _ => none

/-- The post-filter in the words of the specification: a well-formed hit is
included when every element of the resource filter appears in its `indices`; a
hit that is not well formed is skipped. -/
def included (filter : List String) (hit : SearchHit) : Bool :=
  match hit.indices? with
  | some l => decide (∀ f ∈ filter, f ∈ l)
  | none => false

/-- The hit carries a source and the source deserializes into a field map. -/
def SearchHit.Deserializes (hit : SearchHit) : Prop :=
  ∃ raw fields, hit.Source = some raw ∧ jsonUnmarshalMap raw = .ok fields

/-- The value of a text of decimal digits (Horner's rule from `n`). -/
def decimalValue : List Char → Nat → Nat
  | [], n => n
  | c :: t, n => decimalValue t (n * 10 + (c.toNat - '0'.toNat))

/-- A text made of decimal digits only. -/
def allDigits (ds : List Char) : Prop :=
  ∀ c ∈ ds, '0' ≤ c ∧ c ≤ '9'

instance (ds : List Char) : Decidable (allDigits ds) := by
  unfold allDigits; infer_instance

/-! ## Sample data -/

/-- A well-formed audit record that names the resource `a`. -/
def hitA : SearchHit :=
  ⟨"logs", "1", some (.valid (.object [("indices", .array [.string "a"]),
    ("timestamp", .number "1700000003")]))⟩

/-- A well-formed audit record that names the resources `a`, `b` and `c`. -/
def hitABC : SearchHit :=
  ⟨"logs", "2", some (.valid (.object
    [("indices", .array [.string "a", .string "b", .string "c"]),
      ("timestamp", .number "1700000002")]))⟩

/-- An audit record whose `indices` field is a string, not a list of strings. -/
def hitWrongType : SearchHit :=
  ⟨"logs", "3", some (.valid (.object [("indices", .string "a"),
    ("timestamp", .number "1700000001")]))⟩

/-- An audit record without the field `indices`. -/
def hitNoIndices : SearchHit :=
  ⟨"logs", "4", some (.valid (.object [("timestamp", .number "1700000000")]))⟩

/-- A hit whose source is a JSON text, but a string and not an object. -/
def hitNotAMap : SearchHit :=
  ⟨"logs", "5", some (.valid (.string "GET /logs"))⟩

/-- A hit that came without `_source`. -/
def hitNoSource : SearchHit :=
  ⟨"logs", "6", none⟩

/-- An implementation of `regexp.MatchString` for the sample runs, all of which
stay inside the fragment: the documented behaviour inside the fragment, an error
outside of it.  It shows that the condition of `Regexp` can be met. -/
def sampleRegexp : Regexp where
  MatchString := fun pattern s =>
    match matchStringFragment pattern s with
    | some r => r
    | none => .error "error parsing regexp: not in the fragment"
  fragment := by
    intro pattern s r h
    simp only [h]

/-- An engine that holds the index `logs` and answers every search with the given
page in 7 milliseconds. -/
def sampleEngine (page : List SearchHit) : Engine where
  newClientError := fun _ => none
  existing := ["logs"]
  indexExistsError := fun _ => none
  createIndexError := fun _ _ => none
  search := fun _ _ _ => .ok ⟨7, page⟩

/-- An engine without any index, on which every call succeeds. -/
def emptyEngine : Engine where
  newClientError := fun _ => none
  existing := []
  indexExistsError := fun _ => none
  createIndexError := fun _ _ => none
  search := fun _ _ _ => .ok ⟨0, []⟩

/-- An engine that refuses every search. -/
def refusingEngine : Engine where
  newClientError := fun _ => none
  existing := ["logs"]
  indexExistsError := fun _ => none
  createIndexError := fun _ _ => none
  search := fun _ _ _ => .error "elastic: Error 400 (Bad Request)"

/-- A handle on the index `logs`. -/
def sampleStore : elasticsearch :=
  ⟨"http://localhost:9200", "logs", ⟨"http://localhost:9200"⟩⟩

/-! ## The matcher decides the language of the expression -/

theorem matchStar_iff (a : Atom) (k : List Char → Bool) (s : List Char) :
    matchStar a k s = true ↔
      ∃ u v, s = u ++ v ∧ (∀ c ∈ u, a.accepts c = true) ∧ k v = true := by
  induction s with
  | nil =>
    simp only [matchStar]
    constructor
    · intro h
      exact ⟨[], [], rfl, by simp, h⟩
    · rintro ⟨u, v, huv, -, hk⟩
      have hv : v = [] := (List.append_eq_nil.mp huv.symm).2
      rw [← hv]; exact hk
  | cons c t ih =>
    simp only [matchStar, Bool.or_eq_true, Bool.and_eq_true, ih]
    constructor
    · rintro (h | ⟨hc, u, v, rfl, hu, hk⟩)
      · exact ⟨[], c :: t, rfl, by simp, h⟩
      · refine ⟨c :: u, v, rfl, ?_, hk⟩
        intro d hd
        rcases List.mem_cons.mp hd with rfl | hd
        · exact hc
        · exact hu d hd
    · rintro ⟨u, v, huv, hu, hk⟩
      cases u with
      | nil =>
        left
        simp only [List.nil_append] at huv
        rw [huv]; exact hk
      | cons d u =>
        right
        simp only [List.cons_append, List.cons.injEq] at huv
        obtain ⟨rfl, rfl⟩ := huv
        exact ⟨hu c (List.mem_cons_self _ _), u, v, rfl,
          fun e he => hu e (List.mem_cons_of_mem _ he), hk⟩

theorem matchNode_iff (n : Node) (k : List Char → Bool) (s : List Char) :
    matchNode n k s = true ↔ ∃ u v, s = u ++ v ∧ n.Lang u ∧ k v = true := by
  cases n with
  | atom a =>
    cases s with
    | nil =>
      simp only [matchNode, Node.Lang]
      constructor
      · intro h; cases h
      · rintro ⟨u, v, huv, ⟨c, rfl, -⟩, -⟩
        simp at huv
    | cons c t =>
      simp only [matchNode, Node.Lang, Bool.and_eq_true]
      constructor
      · rintro ⟨hc, hk⟩
        exact ⟨[c], t, rfl, ⟨c, rfl, hc⟩, hk⟩
      · rintro ⟨u, v, huv, ⟨d, rfl, hd⟩, hk⟩
        simp only [List.singleton_append, List.cons.injEq] at huv
        obtain ⟨rfl, rfl⟩ := huv
        exact ⟨hd, hk⟩
  | rep op a =>
    cases op with
    | star =>
      simp only [matchNode, Node.Lang]
      exact matchStar_iff a k s
    | plus =>
      cases s with
      | nil =>
        simp only [matchNode, Node.Lang]
        constructor
        · intro h; cases h
        · rintro ⟨u, v, huv, ⟨hne, -⟩, -⟩
          exact absurd (List.append_eq_nil.mp huv.symm).1 hne
      | cons c t =>
        simp only [matchNode, Node.Lang, Bool.and_eq_true, matchStar_iff]
        constructor
        · rintro ⟨hc, u, v, rfl, hu, hk⟩
          refine ⟨c :: u, v, rfl, ⟨by simp, ?_⟩, hk⟩
          intro d hd
          rcases List.mem_cons.mp hd with rfl | hd
          · exact hc
          · exact hu d hd
        · rintro ⟨u, v, huv, ⟨hne, hu⟩, hk⟩
          cases u with
          | nil => exact absurd rfl hne
          | cons d u =>
            simp only [List.cons_append, List.cons.injEq] at huv
            obtain ⟨rfl, rfl⟩ := huv
            exact ⟨hu c (List.mem_cons_self _ _), u, v, rfl,
              fun e he => hu e (List.mem_cons_of_mem _ he), hk⟩
    | quest =>
      cases s with
      | nil =>
        simp only [matchNode, Node.Lang]
        constructor
        · intro h
          exact ⟨[], [], rfl, Or.inl rfl, h⟩
        · rintro ⟨u, v, huv, -, hk⟩
          have hv : v = [] := (List.append_eq_nil.mp huv.symm).2
          rw [← hv]; exact hk
      | cons c t =>
        simp only [matchNode, Node.Lang, Bool.or_eq_true, Bool.and_eq_true]
        constructor
        · rintro (h | ⟨hc, hk⟩)
          · exact ⟨[], c :: t, rfl, Or.inl rfl, h⟩
          · exact ⟨[c], t, rfl, Or.inr ⟨c, rfl, hc⟩, hk⟩
        · rintro ⟨u, v, huv, (rfl | ⟨d, rfl, hd⟩), hk⟩
          · left
            simp only [List.nil_append] at huv
            rw [huv]; exact hk
          · right
            simp only [List.singleton_append, List.cons.injEq] at huv
            obtain ⟨rfl, rfl⟩ := huv
            exact ⟨hd, hk⟩

theorem matchHere_iff (re : List Node) (s : List Char) :
    matchHere re s = true ↔ ∃ u v, s = u ++ v ∧ Lang re u := by
  induction re generalizing s with
  | nil =>
    simp only [matchHere, Lang, true_iff]
    exact ⟨[], s, rfl, rfl⟩
  | cons n r ih =>
    simp only [matchHere, matchNode_iff, Lang]
    constructor
    · rintro ⟨u, v, rfl, hn, hk⟩
      obtain ⟨u2, v2, rfl, hr⟩ := (ih v).mp hk
      exact ⟨u ++ u2, v2, by simp, u, u2, rfl, hn, hr⟩
    · rintro ⟨w, v, rfl, u, u2, rfl, hn, hr⟩
      exact ⟨u, u2 ++ v, by simp, hn, (ih _).mpr ⟨u2, v, rfl, hr⟩⟩

theorem matchAnywhere_iff (re : List Node) (s : List Char) :
    matchAnywhere re s = true ↔ MatchesPart re s := by
  unfold MatchesPart
  induction s with
  | nil =>
    simp only [matchAnywhere, matchHere_iff]
    constructor
    · rintro ⟨u, v, huv, hu⟩
      exact ⟨[], u, v, by simpa using huv, hu⟩
    · rintro ⟨pre, mid, post, h, hm⟩
      have h1 : pre = [] ∧ mid = [] ∧ post = [] := by
        have := List.append_eq_nil.mp h.symm
        have h2 := List.append_eq_nil.mp this.1
        exact ⟨h2.1, h2.2, this.2⟩
      obtain ⟨rfl, rfl, rfl⟩ := h1
      exact ⟨[], [], rfl, hm⟩
  | cons c t ih =>
    simp only [matchAnywhere, Bool.or_eq_true, matchHere_iff, ih]
    constructor
    · rintro (⟨u, v, huv, hu⟩ | ⟨pre, mid, post, rfl, hm⟩)
      · exact ⟨[], u, v, by simpa using huv, hu⟩
      · exact ⟨c :: pre, mid, post, by simp, hm⟩
    · rintro ⟨pre, mid, post, h, hm⟩
      cases pre with
      | nil =>
        left
        exact ⟨mid, post, by simpa using h, hm⟩
      | cons d pre =>
        right
        simp only [List.cons_append, List.cons.injEq] at h
        exact ⟨pre, mid, post, h.2, hm⟩

/-! ## The parser on translated glob patterns -/

theorem parseLoop_cons (c : Char) (t : List Char) (stack : List Node)
    (lastRepeat : Option (List Char)) :
    parseLoop (c :: t) stack lastRepeat =
      match parseStep c t.head? stack lastRepeat with
      | .stop r => Step.report r
      | .next stack1 lastRepeat1 skip =>
        parseLoop (if skip then t.tail else t) stack1 lastRepeat1 := by
  cases t with
  | nil =>
    simp only [parseLoop, List.head?_nil, List.tail_nil, ite_self]
  | cons d t =>
    simp only [parseLoop, List.head?_cons, List.tail_cons]
    cases parseStep c (some d) stack lastRepeat with
    | stop r => rfl
    | next s l skip => cases skip <;> rfl

theorem unmodelledChar_star : unmodelledChar '*' = false := by decide

theorem unmodelledChar_dot : unmodelledChar '.' = false := by decide

theorem globChar_cases (c : Char) (h : globChar c) :
    c = '*' ∨ (c ≠ '*' ∧ repOp? c = none ∧ unmodelledChar c = false) := by
  by_cases hs : c = '*'
  · exact Or.inl hs
  · right
    refine ⟨hs, ?_, h.1⟩
    simp [repOp?, hs, h.2.1, h.2.2]

theorem head?_replaceStar_ne_quest (p : List Char) (h : ∀ c ∈ p, globChar c) :
    (replaceStar p).head? ≠ some '?' := by
  cases p with
  | nil => simp [replaceStar]
  | cons c t =>
    have hc := h c (List.mem_cons_self _ _)
    by_cases hs : c = '*'
    · simp [replaceStar, hs]
    · simp only [replaceStar, hs, if_false, List.head?_cons, ne_eq, Option.some.injEq]
      exact hc.2.2

theorem parseLoop_replaceStar (p : List Char) (h : ∀ c ∈ p, globChar c)
    (stack : List Node) (lastRepeat : Option (List Char)) :
    parseLoop (replaceStar p) stack lastRepeat =
      some (.ok (stack.reverse ++ globNodes p)) := by
  induction p generalizing stack lastRepeat with
  | nil => simp [replaceStar, parseLoop, globNodes]
  | cons c t ih =>
    have ht : ∀ d ∈ t, globChar d := fun d hd => h d (List.mem_cons_of_mem _ hd)
    have hq := head?_replaceStar_ne_quest t ht
    rcases globChar_cases c (h c (List.mem_cons_self _ _)) with rfl | ⟨hs, hop, hun⟩
    · have h1 : parseStep '.' (some '*') stack lastRepeat
          = .next (.atom .anyCharNotNL :: stack) none false := by
        simp [parseStep, repOp?, unmodelledChar_dot]
      have h2 : parseStep '*' (replaceStar t).head? (.atom .anyCharNotNL :: stack) none
          = .next (.rep .star .anyCharNotNL :: stack) (some ['*']) false := by
        simp [parseStep, repOp?, hq]
      simp only [replaceStar, if_true, globNodes]
      rw [parseLoop_cons]
      simp only [List.head?_cons, h1, Bool.false_eq_true, if_false]
      rw [parseLoop_cons]
      simp only [h2, Bool.false_eq_true, if_false]
      rw [ih ht]
      simp
    · simp only [replaceStar, hs, if_false, globNodes]
      rw [parseLoop_cons]
      by_cases hd : c = '.'
      · subst hd
        have h1 : parseStep '.' (replaceStar t).head? stack lastRepeat
            = .next (.atom .anyCharNotNL :: stack) none false := by
          simp [parseStep, hop, hun]
        simp only [h1, Bool.false_eq_true, if_false]
        rw [ih ht]
        simp
      · have h1 : parseStep c (replaceStar t).head? stack lastRepeat
            = .next (.atom (.lit c) :: stack) none false := by
          simp [parseStep, hop, hun, hd]
        simp only [h1, Bool.false_eq_true, if_false]
        rw [ih ht]
        simp [hd]

theorem Compile_replaceStar (p : List Char) (h : ∀ c ∈ p, globChar c) :
    Compile (replaceStar p) = some (.ok (globNodes p)) := by
  unfold Compile
  rw [parseLoop_replaceStar p h]
  simp

/-! ## Globs and the language of their translation -/

theorem anySuffix_iff (k : List Char → Bool) (s : List Char) :
    anySuffix k s = true ↔ ∃ u v, s = u ++ v ∧ k v = true := by
  induction s with
  | nil =>
    simp only [anySuffix]
    constructor
    · intro h; exact ⟨[], [], rfl, h⟩
    · rintro ⟨u, v, huv, hk⟩
      have hv : v = [] := (List.append_eq_nil.mp huv.symm).2
      rw [← hv]; exact hk
  | cons c t ih =>
    simp only [anySuffix, Bool.or_eq_true, ih]
    constructor
    · rintro (h | ⟨u, v, rfl, hk⟩)
      · exact ⟨[], c :: t, rfl, h⟩
      · exact ⟨c :: u, v, rfl, hk⟩
    · rintro ⟨u, v, huv, hk⟩
      cases u with
      | nil =>
        left
        simp only [List.nil_append] at huv
        rw [huv]; exact hk
      | cons d u =>
        right
        simp only [List.cons_append, List.cons.injEq] at huv
        exact ⟨u, v, huv.2, hk⟩

theorem globMatch_iff (p s : List Char) : globMatch p s = true ↔ GlobProduces p s := by
  constructor
  · intro h
    induction p generalizing s with
    | nil =>
      simp only [globMatch, List.isEmpty_iff] at h
      subst h
      exact GlobProduces.nil
    | cons c p ih =>
      by_cases hs : c = '*'
      · subst hs
        simp only [globMatch, if_true, anySuffix_iff] at h
        obtain ⟨u, v, rfl, hk⟩ := h
        exact GlobProduces.star p u v (ih v hk)
      · cases s with
        | nil => simp [globMatch, hs] at h
        | cons d t =>
          simp only [globMatch, hs, if_false, Bool.and_eq_true, decide_eq_true_eq] at h
          obtain ⟨rfl, hk⟩ := h
          exact GlobProduces.char d p t hs (ih t hk)
  · intro h
    induction h with
    | nil => simp [globMatch]
    | star p u v _ ih =>
      simp only [globMatch, if_true, anySuffix_iff]
      exact ⟨u, v, rfl, ih⟩
    | char c p t hc _ ih =>
      simp [globMatch, hc, ih]

theorem glob_of_Lang_globNodes (p : List Char) (hdot : ∀ c ∈ p, c ≠ '.')
    (w : List Char) (h : Lang (globNodes p) w) : GlobProduces p w := by
  induction p generalizing w with
  | nil =>
    simp only [globNodes, Lang] at h
    subst h
    exact GlobProduces.nil
  | cons c p ih =>
    have hp : ∀ d ∈ p, d ≠ '.' := fun d hd => hdot d (List.mem_cons_of_mem _ hd)
    have hc : c ≠ '.' := hdot c (List.mem_cons_self _ _)
    simp only [globNodes, Lang] at h
    obtain ⟨u, v, rfl, hu, hv⟩ := h
    by_cases hs : c = '*'
    · subst hs
      exact GlobProduces.star p u v (ih hp v hv)
    · simp only [hs, hc, if_false, Node.Lang, Atom.accepts, decide_eq_true_eq] at hu
      obtain ⟨d, rfl, rfl⟩ := hu
      exact GlobProduces.char c p v hs (ih hp v hv)

theorem Lang_globNodes_of_glob (p w : List Char) (h : GlobProduces p w)
    (hnl : '\n' ∉ w) : Lang (globNodes p) w := by
  induction h with
  | nil => simp [globNodes, Lang]
  | star p u v _ ih =>
    simp only [globNodes, if_true, Lang]
    refine ⟨u, v, rfl, ?_, ih (fun hv => hnl (List.mem_append_right _ hv))⟩
    intro c hc
    simp only [Atom.accepts, decide_eq_true_eq]
    rintro rfl
    exact hnl (List.mem_append_left _ hc)
  | char c p t hc _ ih =>
    simp only [globNodes, hc, if_false, Lang]
    refine ⟨[c], t, rfl, ?_, ih (fun ht => hnl (List.mem_cons_of_mem _ ht))⟩
    have hcn : c ≠ '\n' := fun e => hnl (e ▸ List.mem_cons_self _ _)
    by_cases hd : c = '.'
    · simp only [hd, if_true, Node.Lang]
      exact ⟨'.', rfl, by decide⟩
    · simp only [hd, if_false, Node.Lang]
      exact ⟨c, rfl, by simp [Atom.accepts]⟩

theorem globDot_of_Lang_globNodes (p w : List Char) (h : Lang (globNodes p) w) :
    GlobDotProduces p w := by
  induction p generalizing w with
  | nil =>
    simp only [globNodes, Lang] at h
    subst h
    exact GlobDotProduces.nil
  | cons c p ih =>
    simp only [globNodes, Lang] at h
    obtain ⟨u, v, rfl, hu, hv⟩ := h
    by_cases hs : c = '*'
    · subst hs
      simp only [if_true, Node.Lang, Atom.accepts, decide_eq_true_eq] at hu
      exact GlobDotProduces.star p u v hu (ih v hv)
    · by_cases hd : c = '.'
      · subst hd
        simp only [hs, if_false, if_true, Node.Lang, Atom.accepts, decide_eq_true_eq] at hu
        obtain ⟨d, rfl, hdn⟩ := hu
        exact GlobDotProduces.dot p d v hdn (ih v hv)
      · simp only [hs, hd, if_false, Node.Lang, Atom.accepts, decide_eq_true_eq] at hu
        obtain ⟨d, rfl, rfl⟩ := hu
        exact GlobDotProduces.char c p v hs hd (ih v hv)

/-! ## The loop over the allowed origins -/

theorem referersLoop_true (regexp : Regexp) (logTag reqDomain : String)
    (refs : List String) (h : referersLoop regexp logTag reqDomain refs = .ok true) :
    ∃ p ∈ refs, regexp.MatchString (replaceStar p.data) reqDomain.data = .ok true := by
  induction refs with
  | nil => simp [referersLoop] at h
  | cons p rest ih =>
    simp only [referersLoop] at h
    cases hm : regexp.MatchString (replaceStar p.data) reqDomain.data with
    | error e => simp [hm] at h
    | ok b =>
      cases b with
      | true => exact ⟨p, List.mem_cons_self _ _, hm⟩
      | false =>
        simp only [hm, Bool.false_eq_true, if_false] at h
        obtain ⟨q, hq, h1⟩ := ih h
        exact ⟨q, List.mem_cons_of_mem _ hq, h1⟩

theorem referersLoop_append (regexp : Regexp) (logTag reqDomain : String)
    (pre : List String) (p : String) (post : List String)
    (hpre : ∀ q ∈ pre, ∃ b,
      regexp.MatchString (replaceStar q.data) reqDomain.data = .ok b)
    (hp : regexp.MatchString (replaceStar p.data) reqDomain.data = .ok true) :
    referersLoop regexp logTag reqDomain (pre ++ p :: post) = .ok true := by
  induction pre with
  | nil => simp [referersLoop, hp]
  | cons q pre ih =>
    obtain ⟨b, hb⟩ := hpre q (List.mem_cons_self _ _)
    have ih1 := ih (fun r hr => hpre r (List.mem_cons_of_mem _ hr))
    cases b with
    | true => simp [referersLoop, hb]
    | false => simp [referersLoop, hb, ih1]

theorem referersLoop_error (regexp : Regexp) (logTag reqDomain : String)
    (refs : List String) (evs : List Event)
    (h : referersLoop regexp logTag reqDomain refs = .error evs) : Event.next ∉ evs := by
  induction refs with
  | nil => simp [referersLoop] at h
  | cons p rest ih =>
    simp only [referersLoop] at h
    cases hm : regexp.MatchString (replaceStar p.data) reqDomain.data with
    | error e =>
      simp only [hm, Except.error.injEq] at h
      subst h
      simp [internalError]
    | ok b =>
      cases b with
      | true => simp [hm] at h
      | false =>
        simp only [hm, Bool.false_eq_true, if_false] at h
        exact ih h

theorem referers_permission (regexp : Regexp) (logTag : String) (perm : Permission)
    (h : String) (hne : h ≠ "") :
    referers regexp logTag ⟨.ok .Permission, .ok perm, some h⟩ =
      match referersLoop regexp logTag h perm.Referers with
      | .error evs => .credentialFromContext :: .permissionFromContext :: evs
      | .ok validated =>
        if validated then [.credentialFromContext, .permissionFromContext, .next]
        else [.credentialFromContext, .permissionFromContext,
          .writeBackError "permission doeesn't have required referers"
            StatusInternalServerError] := by
  simp only [referers, Request.HeaderGetReferer, Option.getD_some, hne, if_true, if_false]
  cases referersLoop regexp logTag h perm.Referers with
  | error e => rfl
  | ok v => cases v <;> rfl

theorem forwards_iff_loop (regexp : Regexp) (logTag : String) (perm : Permission)
    (h : String) (hne : h ≠ "") :
    Forwards (referers regexp logTag ⟨.ok .Permission, .ok perm, some h⟩) ↔
      referersLoop regexp logTag h perm.Referers = .ok true := by
  rw [referers_permission regexp logTag perm h hne]
  cases hl : referersLoop regexp logTag h perm.Referers with
  | error e =>
    have hn := referersLoop_error regexp logTag h perm.Referers e hl
    simp [Forwards, hn]
  | ok v => cases v <;> simp [Forwards]

theorem GlobProduces_self (p : List Char) (h : ∀ c ∈ p, c ≠ '*') : GlobProduces p p := by
  induction p with
  | nil => exact GlobProduces.nil
  | cons c p ih =>
    exact GlobProduces.char c p p (h c (List.mem_cons_self _ _))
      (ih (fun d hd => h d (List.mem_cons_of_mem _ hd)))

theorem MatchString_glob (regexp : Regexp) (p s : List Char) (hp : ∀ c ∈ p, globChar c)
    (hnl : '\n' ∉ s) (hg : GlobProduces p s) :
    regexp.MatchString (replaceStar p) s = .ok true := by
  have hm : matchAnywhere (globNodes p) s = true :=
    (matchAnywhere_iff _ _).mpr ⟨[], s, [], by simp, Lang_globNodes_of_glob p s hg hnl⟩
  apply regexp.fragment
  simp [matchStringFragment, Compile_replaceStar p hp, hm]

theorem MatchesPart_of_MatchString (regexp : Regexp) (pattern s : List Char)
    (nodes : List Node) (hm : regexp.MatchString pattern s = .ok true)
    (hc : Compile pattern = some (.ok nodes)) : MatchesPart nodes s := by
  have hf : matchStringFragment pattern s = some (.ok (matchAnywhere nodes s)) := by
    simp [matchStringFragment, hc]
  have := regexp.fragment pattern s _ hf
  rw [hm] at this
  simp only [Except.ok.injEq] at this
  exact (matchAnywhere_iff nodes s).mp this.symm

/-! ## `strconv.Atoi` on signed decimal texts -/

theorem le_decimalValue (ds : List Char) (n : Nat) : n ≤ decimalValue ds n := by
  induction ds generalizing n with
  | nil => simp [decimalValue]
  | cons c t ih =>
    simp only [decimalValue]
    exact le_trans (by omega) (ih _)

theorem parseUintLoop_digits (ds : List Char) (n : Nat) (hd : allDigits ds)
    (hv : decimalValue ds n < 2 ^ 64) : parseUintLoop ds n = .ok (decimalValue ds n) := by
  induction ds generalizing n with
  | nil => simp [parseUintLoop, decimalValue]
  | cons c t ih =>
    have hc : '0' ≤ c ∧ c ≤ '9' := hd c (List.mem_cons_self _ _)
    have ht : allDigits t := fun d hdm => hd d (List.mem_cons_of_mem _ hdm)
    simp only [decimalValue] at hv
    have hle := le_decimalValue t (n * 10 + (c.toNat - '0'.toNat))
    have hlt : ¬ (n * 10 + (c.toNat - '0'.toNat) ≥ 2 ^ 64) := by omega
    simp only [parseUintLoop, digit?, hc, and_self, if_true, hlt, if_false, decimalValue]
    exact ih _ ht hv

theorem Atoi_negative (ds : List Char) (hne : ds ≠ []) (hd : allDigits ds)
    (hv : decimalValue ds 0 ≤ 2 ^ 63) :
    Atoi (String.mk ('-' :: ds)) = .ok (- (decimalValue ds 0 : Int)) := by
  have hp := parseUintLoop_digits ds 0 hd (by omega)
  have h1 : decimalValue ds 0 ≤ 9223372036854775808 := by
    norm_num at hv
    exact hv
  simp [Atoi, hne, hp, h1]

/-! ## The loop over the hits of a page -/

theorem IsSubset_iff (sub set : List String) :
    IsSubset sub set = true ↔ ∀ f ∈ sub, f ∈ set := by
  simp [IsSubset, List.all_eq_true]

theorem ToStringSlice_indices (hit : SearchHit) (raw : RawMessage)
    (source : List (String × JSON)) (hs : hit.Source = some raw)
    (h : jsonUnmarshalMap raw = .ok source) :
    (ToStringSlice (mapIndex source "indices").1).toOption = hit.indices? := by
  unfold SearchHit.indices?
  rw [hs]
  cases raw with
  | invalid err => simp [jsonUnmarshalMap] at h
  | valid v =>
    cases v with
    | null =>
      simp only [jsonUnmarshalMap, Except.ok.injEq] at h
      subst h
      rfl
    | object fields =>
      simp only [jsonUnmarshalMap, Except.ok.injEq] at h
      subst h
      simp only
      rcases hm : mapIndex fields "indices" with ⟨v, ok⟩
      cases v with
      | array items =>
        simp only [ToStringSlice]
        cases stringItems items <;> rfl
      | _ => rfl
    | _ => simp [jsonUnmarshalMap] at h

theorem hitsLoop_ok (logTag : String) (indices : List String) (page : List SearchHit)
    (hits : List SearchHit) (evs : List Effect)
    (hdec : ∀ hit ∈ page, hit.Deserializes) :
    (hitsLoop logTag indices page hits evs).1 = .ok (hits ++ page.filter (included indices)) := by
  induction page generalizing hits evs with
  | nil => simp [hitsLoop]
  | cons hit rest ih =>
    have hrest : ∀ x ∈ rest, x.Deserializes := fun x hx => hdec x (List.mem_cons_of_mem _ hx)
    obtain ⟨raw, source, hraw, hsrc⟩ := hdec hit (List.mem_cons_self _ _)
    have hidx := ToStringSlice_indices hit raw source hraw hsrc
    simp only [hitsLoop, hraw, hsrc]
    rcases hm : mapIndex source "indices" with ⟨rawIndices, ok⟩
    rw [hm] at hidx
    simp only
    cases hts : ToStringSlice rawIndices with
    | error err =>
      rw [hts] at hidx
      have hinc : included indices hit = false := by
        simp [included, ← hidx, Except.toOption]
      simp only [List.filter_cons, hinc]
      exact ih _ _ hrest
    | ok logIndices =>
      rw [hts] at hidx
      have hinc : included indices hit = decide (∀ f ∈ indices, f ∈ logIndices) := by
        simp [included, ← hidx, Except.toOption]
      by_cases hlen : indices.length = 0
      · have hnil : indices = [] := List.length_eq_zero.mp hlen
        have hinc1 : included indices hit = true := by
          rw [hinc, hnil]
          simp
        simp only [hlen, if_true, List.filter_cons, hinc1]
        rw [ih _ _ hrest]
        simp
      · by_cases hsub : IsSubset indices logIndices = true
        · have hinc1 : included indices hit = true := by
            rw [hinc]
            exact decide_eq_true ((IsSubset_iff _ _).mp hsub)
          simp only [hlen, if_false, hsub, if_true, List.filter_cons, hinc1]
          rw [ih _ _ hrest]
          simp
        · have hinc1 : included indices hit = false := by
            rw [hinc, decide_eq_false_iff_not]
            exact fun hall => hsub ((IsSubset_iff _ _).mpr hall)
          simp only [hlen, if_false, hsub, List.filter_cons, hinc1]
          exact ih _ _ hrest

theorem hitsLoop_not_ok (logTag : String) (indices : List String) (page : List SearchHit)
    (hits : List SearchHit) (evs : List Effect)
    (hbad : ∃ hit ∈ page, ¬ hit.Deserializes) :
    (∃ err, (hitsLoop logTag indices page hits evs).1 = .error err) ∨
    (∃ msg, (hitsLoop logTag indices page hits evs).1 = .panic msg ∧
      ∃ hit ∈ page, hit.Source = none) := by
  induction page generalizing hits evs with
  | nil => simp at hbad
  | cons hit rest ih =>
    cases hraw : hit.Source with
    | none =>
      exact Or.inr ⟨"runtime error: invalid memory address or nil pointer dereference",
        by simp [hitsLoop, hraw], hit, List.mem_cons_self _ _, hraw⟩
    | some raw =>
      cases hsrc : jsonUnmarshalMap raw with
      | error err => exact Or.inl ⟨err, by simp [hitsLoop, hraw, hsrc]⟩
      | ok source =>
        have hrest : ∃ x ∈ rest, ¬ x.Deserializes := by
          obtain ⟨x, hx, hnx⟩ := hbad
          rcases List.mem_cons.mp hx with rfl | hx
          · exact absurd ⟨raw, source, hraw, hsrc⟩ hnx
          · exact ⟨x, hx, hnx⟩
        have lift : ∀ h2 e2,
            ((∃ err, (hitsLoop logTag indices rest h2 e2).1 = .error err) ∨
              (∃ msg, (hitsLoop logTag indices rest h2 e2).1 = .panic msg ∧
                ∃ x ∈ rest, x.Source = none)) →
            ((∃ err, (hitsLoop logTag indices rest h2 e2).1 = .error err) ∨
              (∃ msg, (hitsLoop logTag indices rest h2 e2).1 = .panic msg ∧
                ∃ x ∈ hit :: rest, x.Source = none)) := by
          rintro h2 e2 (h | ⟨msg, hmsg, x, hx, hxs⟩)
          · exact Or.inl h
          · exact Or.inr ⟨msg, hmsg, x, List.mem_cons_of_mem _ hx, hxs⟩
        simp only [hitsLoop, hraw, hsrc]
        rcases mapIndex source "indices" with ⟨rawIndices, ok⟩
        simp only
        cases ToStringSlice rawIndices with
        | error err => exact lift _ _ (ih _ _ hrest)
        | ok logIndices =>
          by_cases hlen : indices.length = 0
          · simp only [hlen, if_true]; exact lift _ _ (ih _ _ hrest)
          · by_cases hsub : IsSubset indices logIndices = true
            · simp only [hlen, if_false, hsub, if_true]; exact lift _ _ (ih _ _ hrest)
            · simp only [hlen, if_false, hsub]; exact lift _ _ (ih _ _ hrest)

theorem getRawLogs_of_search (logTag : String) (eng : Engine) (es : elasticsearch)
    (from' size : String) (indices : List String) (offset s : Int)
    (response : SearchResult) (hfrom : Atoi from' = .ok offset) (hsize : Atoi size = .ok s)
    (hsearch : eng.search es.indexName offset s = .ok response) :
    (getRawLogs logTag eng es from' size indices).1 =
      match (hitsLoop logTag indices response.Hits [] [.search es.indexName offset s]).1 with
      | .panic msg => .panic msg
      | .error err => .error err
      | .ok hits =>
        .ok { logs := hits, total := hits.length, took := response.TookInMillis } := by
  simp only [getRawLogs, hfrom, hsize, hsearch]
  rcases hitsLoop logTag indices response.Hits [] [.search es.indexName offset s]
    with ⟨r, evs⟩
  cases r <;> rfl

theorem append_of_extends (evs e1 : List Effect) (h : ∃ m, e1 = evs ++ m)
    (r : List Effect) (hr : ∃ more, r = e1 ++ more) : ∃ more, r = evs ++ more := by
  obtain ⟨m, rfl⟩ := h
  obtain ⟨more, rfl⟩ := hr
  exact ⟨m ++ more, by simp⟩

theorem hitsLoop_effects (logTag : String) (indices : List String) (page : List SearchHit)
    (hits : List SearchHit) (evs : List Effect) :
    ∃ more, (hitsLoop logTag indices page hits evs).2 = evs ++ more := by
  induction page generalizing hits evs with
  | nil => exact ⟨[], by simp [hitsLoop]⟩
  | cons hit rest ih =>
    cases hraw : hit.Source with
    | none => exact ⟨[], by simp [hitsLoop, hraw]⟩
    | some raw =>
      cases hsrc : jsonUnmarshalMap raw with
      | error err => exact ⟨[], by simp [hitsLoop, hraw, hsrc]⟩
      | ok source =>
        simp only [hitsLoop, hraw, hsrc]
        rcases mapIndex source "indices" with ⟨rawIndices, ok⟩
        simp only
        have hpre : ∃ m, (if (!ok) = true then
            evs ++ [Effect.log (logTag ++ ": unable to find \"indices\" in log record\\n")]
            else evs) = evs ++ m := by
          cases ok
          · exact ⟨_, rfl⟩
          · exact ⟨[], by simp⟩
        generalize (if (!ok) = true then
            evs ++ [Effect.log (logTag ++ ": unable to find \"indices\" in log record\\n")]
            else evs) = e1 at hpre
        cases ToStringSlice rawIndices with
        | error err =>
          simp only
          apply append_of_extends evs (e1 ++ [.log (logTag ++ ": " ++ err ++ "\n")])
          · obtain ⟨m, rfl⟩ := hpre
            exact ⟨_, List.append_assoc _ _ _⟩
          · exact ih _ _
        | ok logIndices =>
          simp only
          split
          · exact append_of_extends evs e1 hpre _ (ih _ _)
          · split
            · exact append_of_extends evs e1 hpre _ (ih _ _)
            · exact append_of_extends evs e1 hpre _ (ih _ _)

/-! ## Origin gate -/

/-- C1 (as stated, refuted): the allowed origin `https://app.example.com` forwards a
request whose `Referer` is `https://app.example.com.evil.org`, although no allowed
origin produces that entire value as a glob. -/
theorem referers_substring_forwards :
    referers sampleRegexp "validate" ⟨.ok .Permission, .ok ⟨["https://app.example.com"]⟩,
      some "https://app.example.com.evil.org"⟩ =
      [.credentialFromContext, .permissionFromContext, .next] ∧
    ¬ ∃ p ∈ ["https://app.example.com"],
      GlobProduces (String.data p) "https://app.example.com.evil.org".data := by
  refine ⟨by decide, ?_⟩
  rintro ⟨p, hp, hg⟩
  simp only [List.mem_singleton] at hp
  subst hp
  have := (globMatch_iff _ _).mpr hg
  revert this
  decide

/-- C1 (amended): with a permission credential, a resolved permission record and a
non-empty `Referer` value `h`, the gate forwards only if, for some allowed origin
`p`, `regexp.MatchString` finds in `h` the regular expression that `p` becomes once
every `*` is replaced by `.*`.  The search is not anchored: when that expression
lies in the fragment of literal characters, `.`, `*`, `+` and `?`, it matches some
contiguous part of `h`; and when `p` holds none of the characters
`\ + ? ( ) | [ ] { } ^ $`, `p` produces some contiguous part of `h`, with `*` read
as any sequence of characters other than the line feed, `.` as any one such
character and every other character as itself (so as a glob, when `p` has no
`.`). -/
theorem referers_forwards_only_if_part_matches (regexp : Regexp) (logTag : String)
    (perm : Permission) (h : String) (hne : h ≠ "")
    (hf : Forwards (referers regexp logTag ⟨.ok .Permission, .ok perm, some h⟩)) :
    ∃ p ∈ perm.Referers,
      regexp.MatchString (replaceStar p.data) h.data = .ok true ∧
      (∀ nodes, Compile (replaceStar p.data) = some (.ok nodes) →
        MatchesPart nodes h.data) ∧
      ((∀ c ∈ p.data, globChar c) →
        ∃ pre mid post, h.data = pre ++ mid ++ post ∧ GlobDotProduces p.data mid ∧
          ((∀ c ∈ p.data, c ≠ '.') → GlobProduces p.data mid)) := by
  obtain ⟨p, hp, hm⟩ := referersLoop_true regexp logTag h perm.Referers
    ((forwards_iff_loop regexp logTag perm h hne).mp hf)
  refine ⟨p, hp, hm, ?_, ?_⟩
  · intro nodes hc
    exact MatchesPart_of_MatchString regexp _ _ nodes hm hc
  · intro hglob
    obtain ⟨pre, mid, post, hsplit, hl⟩ := MatchesPart_of_MatchString regexp _ _
      (globNodes p.data) hm (Compile_replaceStar p.data hglob)
    exact ⟨pre, mid, post, hsplit, globDot_of_Lang_globNodes p.data mid hl,
      fun hdot => glob_of_Lang_globNodes p.data hdot mid hl⟩

/-- Witness of C1 (amended): the allowed origin `https://*.example.com` forwards the
`Referer` value `https://app.example.com/home`, a contiguous part of which it
produces. -/
theorem referers_forwards_only_if_part_matches_witness :
    sampleRegexp.MatchString (replaceStar "https://*.example.com".data)
      "https://app.example.com/home".data = .ok true ∧
    ∃ pre mid post, "https://app.example.com/home".data = pre ++ mid ++ post ∧
      GlobDotProduces "https://*.example.com".data mid := by
  obtain ⟨p, hp, hm, -, hg⟩ := referers_forwards_only_if_part_matches sampleRegexp
    "validate" ⟨["https://*.example.com"]⟩ "https://app.example.com/home"
    (by decide) (by decide)
  simp only [List.mem_singleton] at hp
  subst hp
  obtain ⟨pre, mid, post, hsplit, hdot, -⟩ := hg (by decide)
  exact ⟨hm, pre, mid, post, hsplit, hdot⟩

/-- C2 (as stated, refuted): a header equal to a pattern without `*` is rejected
when the pattern holds a `?`; a pattern that produces the header as a glob is not
reached when an earlier pattern does not compile; and `*` does not stand for a
line feed. -/
theorem referers_glob_rejected :
    (GlobProduces "https://example.com/?q=1".data "https://example.com/?q=1".data ∧
      referers sampleRegexp "validate"
        ⟨.ok .Permission, .ok ⟨["https://example.com/?q=1"]⟩,
          some "https://example.com/?q=1"⟩ =
      [.credentialFromContext, .permissionFromContext,
        .writeBackError "permission doeesn't have required referers" 500]) ∧
    (GlobProduces "https://*.example.com".data "https://app.example.com".data ∧
      referers sampleRegexp "validate"
        ⟨.ok .Permission, .ok ⟨["+", "https://*.example.com"]⟩,
          some "https://app.example.com"⟩ =
      [.credentialFromContext, .permissionFromContext,
        .log "validate: error parsing regexp: missing argument to repetition operator: `+`\n",
        .writeBackError
          "error parsing regexp: missing argument to repetition operator: `+`" 500]) ∧
    (GlobProduces "a*b".data "a\nb".data ∧
      referers sampleRegexp "validate" ⟨.ok .Permission, .ok ⟨["a*b"]⟩, some "a\nb"⟩ =
      [.credentialFromContext, .permissionFromContext,
        .writeBackError "permission doeesn't have required referers" 500]) :=
  ⟨⟨(globMatch_iff _ _).mp (by decide), by decide⟩,
    ⟨(globMatch_iff _ _).mp (by decide), by decide⟩,
    ⟨(globMatch_iff _ _).mp (by decide), by decide⟩⟩

/-- C2 (amended): with a permission credential, a resolved permission record and a
non-empty `Referer` value `h` free of line feeds, if an allowed origin `p` holds
none of the characters `\ + ? ( ) | [ ] { } ^ $`, `regexp.MatchString` reports no
error for any allowed origin before it in the list (each compiles, once every `*`
is replaced by `.*`, as a regular expression), and `p` produces the entire `h` as a
glob, then the gate forwards; in particular when `p` has no `*` and `h` equals
`p`. -/
theorem referers_forwards_glob (regexp : Regexp) (logTag : String) (pre : List String)
    (p : String) (post : List String) (h : String) (hne : h ≠ "")
    (hpre : ∀ q ∈ pre, ∃ b, regexp.MatchString (replaceStar q.data) h.data = .ok b)
    (hp : ∀ c ∈ p.data, globChar c) (hnl : '\n' ∉ h.data) :
    (GlobProduces p.data h.data →
      referers regexp logTag ⟨.ok .Permission, .ok ⟨pre ++ p :: post⟩, some h⟩ =
        [.credentialFromContext, .permissionFromContext, .next]) ∧
    ((∀ c ∈ p.data, c ≠ '*') → h = p →
      referers regexp logTag ⟨.ok .Permission, .ok ⟨pre ++ p :: post⟩, some h⟩ =
        [.credentialFromContext, .permissionFromContext, .next]) := by
  have key : GlobProduces p.data h.data →
      referers regexp logTag ⟨.ok .Permission, .ok ⟨pre ++ p :: post⟩, some h⟩ =
        [.credentialFromContext, .permissionFromContext, .next] := by
    intro hg
    rw [referers_permission regexp logTag _ h hne]
    simp only [referersLoop_append regexp logTag h pre p post hpre
      (MatchString_glob regexp p.data h.data hp hnl hg), if_true]
  refine ⟨key, ?_⟩
  intro hstar heq
  apply key
  rw [heq]
  exact GlobProduces_self p.data hstar

/-- Witness of C2 (amended): after the allowed origin `http://localhost`, the
allowed origin `https://*.example.com` forwards the `Referer` value
`https://app.example.com`, and alone the allowed origin `https://example.com`
forwards the `Referer` value `https://example.com`. -/
theorem referers_forwards_glob_witness :
    referers sampleRegexp "validate" ⟨.ok .Permission,
      .ok ⟨["http://localhost"] ++ "https://*.example.com" :: []⟩,
      some "https://app.example.com"⟩ =
      [.credentialFromContext, .permissionFromContext, .next] ∧
    referers sampleRegexp "validate"
      ⟨.ok .Permission, .ok ⟨[] ++ "https://example.com" :: []⟩,
        some "https://example.com"⟩ =
      [.credentialFromContext, .permissionFromContext, .next] :=
  ⟨(referers_forwards_glob sampleRegexp "validate" ["http://localhost"]
      "https://*.example.com" [] "https://app.example.com" (by decide)
      (by
        intro q hq
        simp only [List.mem_singleton] at hq
        subst hq
        exact ⟨false, by decide⟩)
      (by decide) (by decide)).1 ((globMatch_iff _ _).mp (by decide)),
    (referers_forwards_glob sampleRegexp "validate" [] "https://example.com" []
      "https://example.com" (by decide) (by simp) (by decide) (by decide)).2
      (by decide) rfl⟩

/-- C3: when the credential resolves to a kind other than the permission kind, the
gate calls the next handler and does nothing else: no error response, no lookup of
the permission record, whatever the `Referer` header and the permission record. -/
theorem referers_other_credential (regexp : Regexp) (logTag : String) (c : Credential)
    (perm : Except String Permission) (referer : Option String)
    (hc : c ≠ Credential.Permission) :
    referers regexp logTag ⟨.ok c, perm, referer⟩ = [.credentialFromContext, .next] := by
  simp [referers, hc]

/-- Witness of C3: a credential of another kind, no `Referer` header and no
permission record. -/
theorem referers_other_credential_witness :
    referers sampleRegexp "validate" ⟨.ok (.other 0), .error "no permission", none⟩ =
      [.credentialFromContext, .next] :=
  referers_other_credential sampleRegexp "validate" (.other 0) (.error "no permission")
    none (by decide)

/-- C4: with a permission credential and an absent or empty `Referer` header, the
gate answers 401 with the missing-header message and does not call the next
handler, whatever the permission record (which it does not look up). -/
theorem referers_missing_header (regexp : Regexp) (logTag : String)
    (perm : Except String Permission) (referer : Option String)
    (hr : referer = none ∨ referer = some "") :
    referers regexp logTag ⟨.ok .Permission, perm, referer⟩ =
      [.credentialFromContext,
        .writeBackError "failed to identify request domain, empty header: Referer" 401] := by
  rcases hr with rfl | rfl <;>
    simp [referers, Request.HeaderGetReferer, StatusUnauthorized]

/-- Witness of C4: an empty `Referer` header with a permission record that allows
every origin. -/
theorem referers_missing_header_witness :
    referers sampleRegexp "validate" ⟨.ok .Permission, .ok ⟨["*"]⟩, some ""⟩ =
      [.credentialFromContext,
        .writeBackError "failed to identify request domain, empty header: Referer" 401] :=
  referers_missing_header sampleRegexp "validate" (.ok ⟨["*"]⟩) (some "") (Or.inr rfl)

/-- C5: with a permission credential, a permission record whose list of allowed
origins is empty and a non-empty `Referer` header, the gate writes the error
response "permission doeesn't have required referers" and does not call the next
handler. -/
theorem referers_empty_allowed (regexp : Regexp) (logTag : String) (h : String)
    (hne : h ≠ "") :
    referers regexp logTag ⟨.ok .Permission, .ok ⟨[]⟩, some h⟩ =
      [.credentialFromContext, .permissionFromContext,
        .writeBackError "permission doeesn't have required referers" 500] := by
  rw [referers_permission regexp logTag _ h hne]
  simp [referersLoop, StatusInternalServerError]

/-- Witness of C5: the `Referer` value `https://app.example.com` against an empty
list of allowed origins. -/
theorem referers_empty_allowed_witness :
    referers sampleRegexp "validate"
      ⟨.ok .Permission, .ok ⟨[]⟩, some "https://app.example.com"⟩ =
      [.credentialFromContext, .permissionFromContext,
        .writeBackError "permission doeesn't have required referers" 500] :=
  referers_empty_allowed sampleRegexp "validate" "https://app.example.com" (by decide)

/-! ## Audit store: paginated filtered read -/

/-- C6: when `from` and `size` parse and the search succeeds, `getRawLogs` returns a
result if every hit of the page deserializes, and every result it returns holds
exactly the hits of the page that the subset post-filter includes, in the order of
the engine, with `total` their number: a hit whose `indices` field is the
well-formed list `I` is in `logs` if and only if every element of the resource
filter is in `I`. -/
theorem getRawLogs_subset_filter (logTag : String) (eng : Engine) (es : elasticsearch)
    (from' size : String) (indices : List String) (offset s : Int)
    (response : SearchResult) (hfrom : Atoi from' = .ok offset) (hsize : Atoi size = .ok s)
    (hsearch : eng.search es.indexName offset s = .ok response) :
    ((∀ hit ∈ response.Hits, hit.Deserializes) →
      ∃ r, (getRawLogs logTag eng es from' size indices).1 = .ok r) ∧
    ∀ r, (getRawLogs logTag eng es from' size indices).1 = .ok r →
      r.logs = response.Hits.filter (included indices) ∧
      r.logs.Sublist response.Hits ∧
      r.total = r.logs.length ∧
      ∀ hit ∈ response.Hits, ∀ I, hit.indices? = some I →
        (hit ∈ r.logs ↔ ∀ f ∈ indices, f ∈ I) := by
  have hget := getRawLogs_of_search logTag eng es from' size indices offset s response
    hfrom hsize hsearch
  constructor
  · intro hdec
    rw [hget, hitsLoop_ok logTag indices response.Hits [] _ hdec]
    exact ⟨_, rfl⟩
  · intro r hr
    by_cases hdec : ∀ hit ∈ response.Hits, hit.Deserializes
    · rw [hget, hitsLoop_ok logTag indices response.Hits [] _ hdec] at hr
      simp only [List.nil_append, Outcome.ok.injEq] at hr
      subst hr
      refine ⟨rfl, List.filter_sublist _, rfl, ?_⟩
      intro hit hmem I hI
      simp only [List.mem_filter, hmem, true_and, included, hI, decide_eq_true_eq]
    · exfalso
      have hbad : ∃ hit ∈ response.Hits, ¬ hit.Deserializes := by
        by_contra hcon
        exact hdec (fun hit hmem => by_contra (fun hn => hcon ⟨hit, hmem, hn⟩))
      rcases hitsLoop_not_ok logTag indices response.Hits []
        [.search es.indexName offset s] hbad with ⟨err, herr⟩ | ⟨msg, hmsg, -⟩
      · rw [hget, herr] at hr
        cases hr
      · rw [hget, hmsg] at hr
        cases hr

/-- Witness of C6: with the resource filter `a`, `b`, a page of a record with
`indices` `a` and a record with `indices` `a`, `b`, `c` yields the second one only. -/
theorem getRawLogs_subset_filter_witness :
    (∃ r, (getRawLogs "logs" (sampleEngine [hitA, hitABC]) sampleStore "0" "10"
      ["a", "b"]).1 = .ok r) ∧
    (getRawLogs "logs" (sampleEngine [hitA, hitABC]) sampleStore "0" "10" ["a", "b"]).1 =
      .ok { logs := [hitABC], total := 1, took := 7 } ∧
    (hitABC ∈ [hitABC] ↔ ∀ f ∈ ["a", "b"], f ∈ ["a", "b", "c"]) ∧
    (hitA ∈ [hitABC] ↔ ∀ f ∈ ["a", "b"], f ∈ ["a"]) := by
  have h := getRawLogs_subset_filter "logs" (sampleEngine [hitA, hitABC]) sampleStore
    "0" "10" ["a", "b"] 0 10 ⟨7, [hitA, hitABC]⟩ (by decide) (by decide) rfl
  have hr := h.2 { logs := [hitABC], total := 1, took := 7 } rfl
  refine ⟨h.1 ?_, rfl, hr.2.2.2 hitABC (by simp) ["a", "b", "c"] rfl,
    hr.2.2.2 hitA (by simp) ["a"] rfl⟩
  intro hit hmem
  simp only [List.mem_cons, List.mem_singleton, List.not_mem_nil, or_false] at hmem
  rcases hmem with rfl | rfl
  · exact ⟨_, _, rfl, rfl⟩
  · exact ⟨_, _, rfl, rfl⟩

/-- C7: when `from` does not parse as an integer, `getRawLogs` returns the error
`invalid value "<from>" for query param "from"`, no result, and makes no call to
the engine, whatever `size` and the resource filter; when `from` parses and `size`
does not, the error names `size` and quotes its value. -/
theorem getRawLogs_invalid_param (logTag : String) (eng : Engine) (es : elasticsearch)
    (from' size : String) (indices : List String) :
    (∀ e, Atoi from' = .error e →
      getRawLogs logTag eng es from' size indices =
        (.error ("invalid value \"" ++ from' ++ "\" for query param \"from\""), [])) ∧
    (∀ offset e, Atoi from' = .ok offset → Atoi size = .error e →
      getRawLogs logTag eng es from' size indices =
        (.error ("invalid value \"" ++ size ++ "\" for query param \"size\""), [])) := by
  constructor
  · intro e he
    simp [getRawLogs, he]
  · intro offset e hfrom hsize
    simp [getRawLogs, hfrom, hsize]

/-- Witness of C7: `from` is `x`; then `from` is `1` and `size` is `1.5`. -/
theorem getRawLogs_invalid_param_witness :
    getRawLogs "logs" (sampleEngine [hitA]) sampleStore "x" "1" [] =
      (.error "invalid value \"x\" for query param \"from\"", []) ∧
    getRawLogs "logs" (sampleEngine [hitA]) sampleStore "1" "1.5" [] =
      (.error "invalid value \"1.5\" for query param \"size\"", []) :=
  ⟨(getRawLogs_invalid_param "logs" (sampleEngine [hitA]) sampleStore "x" "1" []).1
      .syntaxErr (by decide),
    (getRawLogs_invalid_param "logs" (sampleEngine [hitA]) sampleStore "1" "1.5" []).2
      1 .syntaxErr (by decide) (by decide)⟩

/-- C8 (as stated, refuted): with `from` and `size` both `-1`, `getRawLogs` does not
fail: it searches the engine with offset `-1` and size `-1` and returns the
result. -/
theorem getRawLogs_negative_searches :
    getRawLogs "logs" (sampleEngine []) sampleStore "-1" "-1" [] =
      (.ok { logs := [], total := 0, took := 7 }, [.search "logs" (-1) (-1)]) := by
  rfl

/-- C8 (amended): `getRawLogs` reads `from` and `size` as signed decimal integers.
A `-` followed by decimal digits of value at most `2^63` parses to the negated
value, and whenever both parameters parse, negative or not, the first effect of
`getRawLogs` is the search of the engine with that offset and that size; an error
of the search is returned as it is. -/
theorem getRawLogs_signed_params (logTag : String) (eng : Engine) (es : elasticsearch)
    (from' size : String) (indices : List String) :
    (∀ ds, ds ≠ [] → allDigits ds → decimalValue ds 0 ≤ 2 ^ 63 →
      Atoi (String.mk ('-' :: ds)) = .ok (- (decimalValue ds 0 : Int))) ∧
    (∀ offset s, Atoi from' = .ok offset → Atoi size = .ok s →
      (∃ evs, (getRawLogs logTag eng es from' size indices).2 =
        .search es.indexName offset s :: evs) ∧
      ∀ err, eng.search es.indexName offset s = .error err →
        (getRawLogs logTag eng es from' size indices).1 = .error err) := by
  refine ⟨fun ds hne hd hv => Atoi_negative ds hne hd hv, ?_⟩
  intro offset s hfrom hsize
  constructor
  · cases hsearch : eng.search es.indexName offset s with
    | error err => exact ⟨[], by simp [getRawLogs, hfrom, hsize, hsearch]⟩
    | ok response =>
      obtain ⟨more, hmore⟩ := hitsLoop_effects logTag indices response.Hits []
        [.search es.indexName offset s]
      refine ⟨more, ?_⟩
      simp only [getRawLogs, hfrom, hsize, hsearch]
      rcases hl : hitsLoop logTag indices response.Hits [] [.search es.indexName offset s]
        with ⟨r, evs⟩
      rw [hl] at hmore
      cases r <;> simpa using hmore
  · intro err herr
    simp [getRawLogs, hfrom, hsize, herr]

/-- Witness of C8 (amended): `from` is `-1` and `size` is `5`, on an engine that
answers and on an engine that refuses the search. -/
theorem getRawLogs_signed_params_witness :
    Atoi (String.mk ('-' :: ['1'])) = .ok (- (decimalValue ['1'] 0 : Int)) ∧
    (∃ evs, (getRawLogs "logs" (sampleEngine [hitA]) sampleStore "-1" "5" []).2 =
      .search "logs" (-1) 5 :: evs) ∧
    (getRawLogs "logs" refusingEngine sampleStore "-1" "5" []).1 =
      .error "elastic: Error 400 (Bad Request)" :=
  ⟨(getRawLogs_signed_params "logs" (sampleEngine [hitA]) sampleStore "-1" "5" []).1
      ['1'] (by decide) (by decide) (by decide),
    ((getRawLogs_signed_params "logs" (sampleEngine [hitA]) sampleStore "-1" "5" []).2
      (-1) 5 (by decide) (by decide)).1,
    ((getRawLogs_signed_params "logs" refusingEngine sampleStore "-1" "5" []).2
      (-1) 5 (by decide) (by decide)).2 "elastic: Error 400 (Bad Request)" rfl⟩

/-- C9 (as stated, refuted): a page whose first hit has a source that is a JSON
string, not a field map, makes `getRawLogs` return the decoder's error, and a page
whose first hit came without a source makes it panic, although in both pages the
second hit is well formed and passes the empty filter. -/
theorem getRawLogs_bad_source_aborts :
    (getRawLogs "logs" (sampleEngine [hitNotAMap, hitA]) sampleStore "0" "10" []).1 =
      .error "json: cannot unmarshal string into Go value of type map[string]interface {}" ∧
    (getRawLogs "logs" (sampleEngine [hitNoSource, hitA]) sampleStore "0" "10" []).1 =
      .panic "runtime error: invalid memory address or nil pointer dereference" ∧
    hitA.indices? = some ["a"] := by
  exact ⟨rfl, rfl, rfl⟩

/-- C9 (amended): when `from` and `size` parse and the search succeeds, a hit whose
source deserializes into a field map but whose `indices` field is absent or of the
wrong type is skipped and does not abort the read: if every hit of the page carries
a source that deserializes into a field map, `getRawLogs` returns a result whose
`logs` are exactly the hits of the page that the post-filter includes, in the order
of the page; no hit without a well-formed `indices` field is among them, and every
well-formed hit of the page that passes the filter is, wherever it stands in the
page.  On a page whose hits all carry a source, a hit whose source does not
deserialize into a field map makes `getRawLogs` return an error. -/
theorem getRawLogs_skips_malformed (logTag : String) (eng : Engine) (es : elasticsearch)
    (from' size : String) (indices : List String) (offset s : Int)
    (response : SearchResult) (hfrom : Atoi from' = .ok offset) (hsize : Atoi size = .ok s)
    (hsearch : eng.search es.indexName offset s = .ok response) :
    ((∀ hit ∈ response.Hits, hit.Deserializes) →
      ∃ r, (getRawLogs logTag eng es from' size indices).1 = .ok r ∧
        r.logs = response.Hits.filter (included indices) ∧
        (∀ hit, hit.indices? = none → hit ∉ r.logs) ∧
        (∀ hit ∈ response.Hits, ∀ I, hit.indices? = some I → (∀ f ∈ indices, f ∈ I) →
          hit ∈ r.logs)) ∧
    ((∀ hit ∈ response.Hits, hit.Source ≠ none) →
      (∃ hit ∈ response.Hits, ¬ hit.Deserializes) →
      ∃ err, (getRawLogs logTag eng es from' size indices).1 = .error err) := by
  have hget := getRawLogs_of_search logTag eng es from' size indices offset s response
    hfrom hsize hsearch
  constructor
  · intro hdec
    rw [hget, hitsLoop_ok logTag indices response.Hits [] _ hdec]
    refine ⟨_, rfl, rfl, ?_, ?_⟩
    · intro hit hnone hmem
      simp only [List.nil_append, List.mem_filter, included, hnone] at hmem
      exact absurd hmem.2 (by simp)
    · intro hit hmem I hI hsub
      simp only [List.nil_append, List.mem_filter, hmem, true_and, included, hI,
        decide_eq_true_eq]
      exact hsub
  · intro hsrc hbad
    rcases hitsLoop_not_ok logTag indices response.Hits []
      [.search es.indexName offset s] hbad with ⟨err, herr⟩ | ⟨msg, -, hit, hmem, hnone⟩
    · exact ⟨err, by rw [hget, herr]⟩
    · exact absurd hnone (hsrc hit hmem)

/-- Witness of C9 (amended): with the resource filter `a`, a page of a record whose
`indices` is a string, a record without `indices` and a well-formed record yields
the last one only; a page of a hit whose source is a JSON string and a well-formed
record yields an error. -/
theorem getRawLogs_skips_malformed_witness :
    (∃ r, (getRawLogs "logs" (sampleEngine [hitWrongType, hitNoIndices, hitA]) sampleStore
        "0" "10" ["a"]).1 = .ok r ∧
      r.logs = [hitWrongType, hitNoIndices, hitA].filter (included ["a"]) ∧
      (∀ hit, hit.indices? = none → hit ∉ r.logs) ∧
      (∀ hit ∈ [hitWrongType, hitNoIndices, hitA], ∀ I, hit.indices? = some I →
        (∀ f ∈ ["a"], f ∈ I) → hit ∈ r.logs)) ∧
    [hitWrongType, hitNoIndices, hitA].filter (included ["a"]) = [hitA] ∧
    (∃ err, (getRawLogs "logs" (sampleEngine [hitNotAMap, hitA]) sampleStore "0" "10"
        ["a"]).1 = .error err) :=
  ⟨(getRawLogs_skips_malformed "logs" (sampleEngine [hitWrongType, hitNoIndices, hitA])
      sampleStore "0" "10" ["a"] 0 10 ⟨7, [hitWrongType, hitNoIndices, hitA]⟩
      (by decide) (by decide) rfl).1
      (by
        intro hit hmem
        simp only [List.mem_cons, List.mem_singleton, List.not_mem_nil, or_false] at hmem
        rcases hmem with rfl | rfl | rfl
        · exact ⟨_, _, rfl, rfl⟩
        · exact ⟨_, _, rfl, rfl⟩
        · exact ⟨_, _, rfl, rfl⟩),
    rfl,
    (getRawLogs_skips_malformed "logs" (sampleEngine [hitNotAMap, hitA]) sampleStore
      "0" "10" ["a"] 0 10 ⟨7, [hitNotAMap, hitA]⟩ (by decide) (by decide) rfl).2
      (by
        intro hit hmem
        simp only [List.mem_cons, List.mem_singleton, List.not_mem_nil, or_false] at hmem
        rcases hmem with rfl | rfl
        · simp [hitNotAMap]
        · simp [hitA])
      ⟨hitNotAMap, by simp, by
        rintro ⟨raw, fields, hraw, hf⟩
        simp only [hitNotAMap, Option.some.injEq] at hraw
        subst hraw
        simp [jsonUnmarshalMap] at hf⟩⟩

/-! ## Audit store: provisioning -/

theorem newClient_existing (logTag : String) (eng : Engine) (url indexName config : String)
    (hconn : eng.newClientError url = none) (hcheck : eng.indexExistsError indexName = none)
    (hex : indexName ∈ eng.existing) :
    newClient logTag eng url indexName config =
      (.ok ⟨url, indexName, ⟨url⟩⟩, eng,
        [.newClient url, .indexExists indexName,
          .log (logTag ++ ": index named \"" ++ indexName ++ "\" already exists, skipping ...\n")]) := by
  simp [newClient, hconn, Engine.IndexExists, hcheck, hex]

/-- C10: with the engine a set of existing index names, when the connection and the
existence check succeed and the index exists, `newClient` returns the handle bound
to the index name without error, makes no create-index call and leaves the engine
as it was; and after any successful call of `newClient`, on an index that existed
or not, a second call with the same arguments returns the same handle, makes no
create-index call and leaves the engine as the first call left it. -/
theorem newClient_idempotent (logTag : String) (eng : Engine)
    (url indexName config : String) :
    (eng.newClientError url = none → eng.indexExistsError indexName = none →
      indexName ∈ eng.existing →
      newClient logTag eng url indexName config =
        (.ok ⟨url, indexName, ⟨url⟩⟩, eng,
          [.newClient url, .indexExists indexName,
            .log (logTag ++ ": index named \"" ++ indexName ++
              "\" already exists, skipping ...\n")])) ∧
    (∀ es, (newClient logTag eng url indexName config).1 = .ok es →
      es = ⟨url, indexName, ⟨url⟩⟩ ∧
      newClient logTag (newClient logTag eng url indexName config).2.1 url indexName config =
        (.ok es, (newClient logTag eng url indexName config).2.1,
          [.newClient url, .indexExists indexName,
            .log (logTag ++ ": index named \"" ++ indexName ++
              "\" already exists, skipping ...\n")])) := by
  refine ⟨newClient_existing logTag eng url indexName config, ?_⟩
  intro es hes
  cases hconn : eng.newClientError url with
  | some err => simp [newClient, hconn] at hes
  | none =>
    cases hcheck : eng.indexExistsError indexName with
    | some err => simp [newClient, hconn, Engine.IndexExists, hcheck] at hes
    | none =>
      by_cases hex : indexName ∈ eng.existing
      · have h1 := newClient_existing logTag eng url indexName config hconn hcheck hex
        rw [h1] at hes ⊢
        simp only [Except.ok.injEq] at hes
        subst hes
        exact ⟨rfl, h1⟩
      · cases hcreate : eng.createIndexError indexName config with
        | some err =>
          simp [newClient, hconn, Engine.IndexExists, hcheck, hex, Engine.CreateIndex,
            hcreate] at hes
        | none =>
          have h1 : newClient logTag eng url indexName config =
              (.ok ⟨url, indexName, ⟨url⟩⟩,
                { eng with existing := indexName :: eng.existing },
                [.newClient url, .indexExists indexName, .createIndex indexName config,
                  .log (logTag ++ ": successfully created index name \"" ++ indexName ++
                    "\"")]) := by
            simp [newClient, hconn, Engine.IndexExists, hcheck, hex, Engine.CreateIndex,
              hcreate]
          rw [h1] at hes ⊢
          simp only [Except.ok.injEq] at hes
          subst hes
          exact ⟨rfl, newClient_existing logTag _ url indexName config hconn hcheck
            (List.mem_cons_self _ _)⟩

/-- Witness of C10: a call on an engine that holds the index `logs`; and, on an
engine without any index, a second call after the first one created the index. -/
theorem newClient_idempotent_witness :
    newClient "logs" (sampleEngine []) "http://localhost:9200" "logs" "settings" =
      (.ok ⟨"http://localhost:9200", "logs", ⟨"http://localhost:9200"⟩⟩, sampleEngine [],
        [.newClient "http://localhost:9200", .indexExists "logs",
          .log ("logs" ++ ": index named \"" ++ "logs" ++
            "\" already exists, skipping ...\n")]) ∧
    newClient "logs"
        (newClient "logs" emptyEngine "http://localhost:9200" "logs" "settings").2.1
        "http://localhost:9200" "logs" "settings" =
      (.ok ⟨"http://localhost:9200", "logs", ⟨"http://localhost:9200"⟩⟩,
        (newClient "logs" emptyEngine "http://localhost:9200" "logs" "settings").2.1,
        [.newClient "http://localhost:9200", .indexExists "logs",
          .log ("logs" ++ ": index named \"" ++ "logs" ++
            "\" already exists, skipping ...\n")]) :=
  ⟨(newClient_idempotent "logs" (sampleEngine []) "http://localhost:9200" "logs"
      "settings").1 rfl rfl (by decide),
    ((newClient_idempotent "logs" emptyEngine "http://localhost:9200" "logs"
      "settings").2 ⟨"http://localhost:9200", "logs", ⟨"http://localhost:9200"⟩⟩ rfl).2⟩

end Arc
